import Mathlib

/-!
Shallow embedding of `src/source.ts` (miguel76/sparql-net): a demand-propagation
dependency graph over four node families (Graph, Dataset, Term, Tabular).

The TypeScript classes form a mutable object graph.  We embed it as a heap:
an association list from node identities (`NodeId`) to node records (`Node`).
Each node record carries the variant kind chosen at construction (the `type`
tag together with the constructor's producer-reference attributes), the
`consumers` list, and the `observers` list (the latter is only ever touched on
Term- and Tabular-family nodes, mirroring the classes that declare it).

Method bodies are translated literally:
* `addConsumer`:   `this.consumers.includes(c) || this.consumers.push(c)`
* `removeConsumer`: `indexOf` + `splice(index, 1)` = erase the first occurrence
* `addObserver`:   `this.observers.includes(this) || this.observers.push(this)`
  (the source pushes `this`, the node itself, ignoring the passed token)
* `removeObserver`: erase the first occurrence of the passed token
* `isObserved`:    `hasObserver() || consumers.some(c => c.isObserved())` on
  Term/Tabular nodes, `consumers.some(c => c.isObserved())` on Graph/Dataset
  nodes. The recursion over the object graph is embedded with explicit fuel.
* each derived-class constructor registers the new node with its producers in
  source order; `detache` removes the registrations the source removes.
-/

/-- Identity of a node in the heap (a JS object reference). -/
abbrev NodeId := Nat

/-- An observer token: either a node of the graph (a JS object that happens to
be a node) or an external party. `includes`/`indexOf` compare by identity. -/
inductive ObsToken where
  | node : NodeId → ObsToken
  | ext : Nat → ObsToken
deriving DecidableEq, Repr

/-- `NamedVarMapping = {name: string, nameInQuery: string}`. -/
structure NamedVarMapping where
  name : String
  nameInQuery : String
deriving DecidableEq, Repr

/-- `VarMapping = {default?: string; named: NamedVarMapping[]}`. -/
structure VarMapping where
  default : Option String
  named : List NamedVarMapping
deriving DecidableEq, Repr

/-- `TabularSourceAndMapping = {source: TabularSource; var: VarMapping}`. -/
structure TabularSourceAndMapping where
  source : NodeId
  var : VarMapping
deriving DecidableEq, Repr

/-- The variant kind of a node: the class's `type` tag together with the
attributes stored by its constructor.  The four `...Source` base classes are
exported and directly instantiable, so they appear as kinds of their own
(carrying the `type` string passed to the base constructor).  Opaque external
values (RDF terms, SPARQL algebra trees) are embedded as `Nat` codes. -/
inductive NodeKind where
  | graphSource : String → NodeKind
  | graphSelector : NodeId → Nat → NodeKind
  | constructQuery : NodeId → Nat → NodeKind
  | datasetSource : String → NodeKind
  | datasetBuilder : NodeId → List (NodeId × NodeId) → NodeKind
  | datasetMerge : List NodeId → NodeKind
  | sparqlEndpoint : String → NodeKind
  | defaultSparqlEndpoint : NodeKind
  | rdfTermSource : String → NodeKind
  | rdfTerm : Nat → NodeKind
  | varFromSelect : String → Nat → NodeId → List (String × NodeId) → NodeKind
  | allTerms : NodeId → NodeKind
  | tabularSource : String → NodeKind
  | selectQuery : VarMapping → Nat → NodeId → List TabularSourceAndMapping → NodeKind
  | defaultVarAllTerms : NodeId → NodeKind
deriving DecidableEq, Repr

/-- The four node families of the taxonomy. -/
inductive Family where
  | graph
  | dataset
  | term
  | tabular
deriving DecidableEq, Repr

/-- Which base class (family) a node kind extends. -/
def NodeKind.family : NodeKind → Family
  | .graphSource _ => .graph
  | .graphSelector _ _ => .graph
  | .constructQuery _ _ => .graph
  | .datasetSource _ => .dataset
  | .datasetBuilder _ _ => .dataset
  | .datasetMerge _ => .dataset
  | .sparqlEndpoint _ => .dataset
  | .defaultSparqlEndpoint => .dataset
  | .rdfTermSource _ => .term
  | .rdfTerm _ => .term
  | .varFromSelect _ _ _ _ => .term
  | .allTerms _ => .term
  | .tabularSource _ => .tabular
  | .selectQuery _ _ _ _ => .tabular
  | .defaultVarAllTerms _ => .tabular

/-- True on the families whose base classes declare an `observers` list and the
`hasObserver() || ...` form of `isObserved` (`RDFTermSource`, `TabularSource`). -/
def NodeKind.isTermOrTabular (k : NodeKind) : Bool :=
  k.family == Family.term || k.family == Family.tabular

/-- One node of the object graph: its immutable kind and its two mutable
registration lists. -/
structure Node where
  kind : NodeKind
  consumers : List NodeId
  observers : List ObsToken
deriving DecidableEq, Repr

/-- The object heap: node records addressed by identity, plus the next fresh
identity. -/
structure Heap where
  nodes : List (NodeId × Node)
  next : NodeId
deriving DecidableEq, Repr

/-- Dereference a node id. -/
def Heap.find? (h : Heap) (i : NodeId) : Option Node :=
  h.nodes.lookup i

/-- Apply `f` to the entry with key `j` (identity `j`), leave others alone. -/
def modifyEntry (j : NodeId) (f : Node → Node) : NodeId × Node → NodeId × Node
  | (k, v) => if k = j then (k, f v) else (k, v)

/-- Update the node with identity `j` in place. -/
def Heap.modify (h : Heap) (j : NodeId) (f : Node → Node) : Heap :=
  ⟨h.nodes.map (modifyEntry j f), h.next⟩

/-- `addConsumer(consumer)`, shared verbatim by all four base classes:
`this.consumers.includes(consumer) || this.consumers.push(consumer)`. -/
def addConsumerFn (c : NodeId) (n : Node) : Node :=
  if c ∈ n.consumers then n else { n with consumers := n.consumers ++ [c] }

/-- `removeConsumer(consumer)`, shared verbatim by all four base classes:
`indexOf` then `splice(index, 1)` when found — erase the first occurrence,
no-op when absent. -/
def removeConsumerFn (c : NodeId) (n : Node) : Node :=
  { n with consumers := n.consumers.erase c }

/-- `addObserver(consumer)` of `RDFTermSource` and `TabularSource`, verbatim:
`this.observers.includes(this) || this.observers.push(this)`.
Note that the body tests for and pushes `this` — the node itself, embedded as
`ObsToken.node selfId` — and ignores the passed token entirely. -/
def addObserverFn (selfId : NodeId) (_token : ObsToken) (n : Node) : Node :=
  if ObsToken.node selfId ∈ n.observers then n
  else { n with observers := n.observers ++ [ObsToken.node selfId] }

/-- `removeObserver(consumer)` of `RDFTermSource` and `TabularSource`:
erase the first occurrence of the passed token, no-op when absent. -/
def removeObserverFn (token : ObsToken) (n : Node) : Node :=
  { n with observers := n.observers.erase token }

/-- `hasObserver(): boolean { return this.observers.length > 0 }`. -/
def Node.hasObserver (n : Node) : Bool :=
  decide (0 < n.observers.length)

/-- Heap-level `producer.addConsumer(consumer)`. -/
def Heap.addConsumer (h : Heap) (p c : NodeId) : Heap :=
  h.modify p (addConsumerFn c)

/-- Heap-level `producer.removeConsumer(consumer)`. -/
def Heap.removeConsumer (h : Heap) (p c : NodeId) : Heap :=
  h.modify p (removeConsumerFn c)

/-- Heap-level `node.addObserver(token)`. -/
def Heap.addObserver (h : Heap) (i : NodeId) (t : ObsToken) : Heap :=
  h.modify i (addObserverFn i t)

/-- Heap-level `node.removeObserver(token)`. -/
def Heap.removeObserver (h : Heap) (i : NodeId) (t : ObsToken) : Heap :=
  h.modify i (removeObserverFn t)

/-- `Object.values` applied to a JS `Map` value (as in `DatasetBuilder`):
a `Map`'s entries live in internal slots, not in own enumerable properties,
so `Object.values` returns the empty array whatever the map contains. -/
def objectValuesOnMap (_m : List (NodeId × NodeId)) : List NodeId :=
  []

/-- The producers a constructor registers with, in source order:
* `GraphSelector`, `ConstructQuery`, `AllTermsFromDatasetSource`,
  `DefaultVarAllTerms`: `this.datasetSource.addConsumer(this)`;
* `DatasetBuilder`: the default graph source, then
  `Object.values(this.namedGraphSources).forEach(...)` (empty on a `Map`);
* `DatasetMerge`: every input dataset source, in order;
* `VarFromSelectQuery`: the dataset source, then each entry of
  `this.params.values()` (genuine `Map` iteration, insertion order);
* `SelectQuerySource`: the dataset source, then `s.source` for each entry of
  `bindingSources`;
* leaf classes register nowhere. -/
def registerTargets : NodeKind → List NodeId
  | .graphSelector d _ => [d]
  | .constructQuery d _ => [d]
  | .datasetBuilder d named => d :: objectValuesOnMap named
  | .datasetMerge inputs => inputs
  | .varFromSelect _ _ d params => d :: params.map Prod.snd
  | .allTerms d => [d]
  | .selectQuery _ _ d bindings => d :: bindings.map TabularSourceAndMapping.source
  | .defaultVarAllTerms d => [d]
  | _ => []

/-- The producers `detache()` unregisters from, in source order; `none` on the
kinds that have no `detache` method.  Note `VarFromSelectQuery.detache` and
`SelectQuerySource.detache` remove only the dataset-source registration, and
`DatasetBuilder.detache` again iterates `Object.values` over a `Map`. -/
def detacheTargets : NodeKind → Option (List NodeId)
  | .graphSelector d _ => some [d]
  | .constructQuery d _ => some [d]
  | .datasetBuilder d named => some (d :: objectValuesOnMap named)
  | .datasetMerge inputs => some inputs
  | .varFromSelect _ _ d _ => some [d]
  | .allTerms d => some [d]
  | .selectQuery _ _ d _ => some [d]
  | .defaultVarAllTerms d => some [d]
  | _ => none

/-- Run a constructor: allocate the node with fresh identity and empty
registration lists, then perform each `producer.addConsumer(this)` call the
constructor body performs. Returns the new heap and the new node's identity. -/
def mkNode (h : Heap) (k : NodeKind) : Heap × NodeId :=
  let i := h.next
  let h1 : Heap := ⟨h.nodes ++ [(i, ⟨k, [], []⟩)], i + 1⟩
  ((registerTargets k).foldl (fun hh p => hh.addConsumer p i) h1, i)

/-- Remove consumer `c` from every producer in `ts`, left to right. -/
def Heap.removeAllConsumers (h : Heap) (ts : List NodeId) (c : NodeId) : Heap :=
  ts.foldl (fun hh p => hh.removeConsumer p c) h

/-- `node.detache()`: remove this node from the consumer lists its `detache`
method removes it from. -/
def Heap.detache (h : Heap) (i : NodeId) : Heap :=
  match h.find? i with
  | none => h
  | some n =>
    match detacheTargets n.kind with
    | none => h
    | some ts => h.removeAllConsumers ts i

/-- One step of the left-to-right short-circuit fold embedding
`consumers.some(c => c.isObserved())`: once the accumulator is `some true` the
remaining callbacks are not evaluated; `none` records that an earlier callback
failed to terminate. -/
def anyObsStep (g : NodeId → Option Bool) (acc : Option Bool) (c : NodeId) : Option Bool :=
  match acc with
  | none => none
  | some true => some true
  | some false => g c

/-- Fuelled embedding of the recursive `isObserved()`:
`some b` when the recursion completes with result `b` within the given depth,
`none` when the depth is exhausted (the JS recursion would still be running).
On Term/Tabular nodes the body is `hasObserver() || consumers.some(...)`; on
Graph/Dataset nodes it is `consumers.some(...)` (their observer list does not
exist, embedded as permanently empty). -/
def isObservedF (h : Heap) : Nat → NodeId → Option Bool
  | 0, _ => none
  | fuel+1, i =>
    match h.find? i with
    | none => some false
    | some n =>
      if n.kind.isTermOrTabular && n.hasObserver then some true
      else n.consumers.foldl (anyObsStep (isObservedF h fuel)) (some false)

/-- A rank function witnessing that the consumer edges form a DAG: every
consumer of a node has strictly smaller rank than the node. -/
def Ranked (h : Heap) (rank : NodeId → Nat) : Prop :=
  ∀ pr ∈ h.nodes, ∀ c ∈ pr.2.consumers, rank c < rank pr.1

instance (h : Heap) (rank : NodeId → Nat) : Decidable (Ranked h rank) :=
  inferInstanceAs (Decidable (∀ pr ∈ h.nodes, ∀ c ∈ pr.2.consumers, rank c < rank pr.1))

/-- The value of `isObserved()` on a heap whose consumer edges are ranked:
the fuelled recursion run with enough fuel to complete. -/
def Heap.isObservedR (h : Heap) (rank : NodeId → Nat) (i : NodeId) : Bool :=
  (isObservedF h (rank i + 1) i).getD false

/-- All consumer lists in the heap are duplicate-free (the invariant
`addConsumer` maintains from the empty list up). -/
def WFHeap (h : Heap) : Prop :=
  ∀ pr ∈ h.nodes, pr.2.consumers.Nodup

instance (h : Heap) : Decidable (WFHeap h) :=
  inferInstanceAs (Decidable (∀ pr ∈ h.nodes, pr.2.consumers.Nodup))

/-- An observer-list operation on one node. -/
inductive ObsOp where
  | add : ObsToken → ObsOp
  | remove : ObsToken → ObsOp
deriving DecidableEq, Repr

/-- Apply one observer-list operation to a node with identity `selfId`. -/
def applyObsOp (selfId : NodeId) (n : Node) : ObsOp → Node
  | .add t => addObserverFn selfId t n
  | .remove t => removeObserverFn t n

/-- Apply a sequence of observer-list operations. -/
def runObsOps (selfId : NodeId) (n : Node) (ops : List ObsOp) : Node :=
  ops.foldl (applyObsOp selfId) n

/-- `getDatasetSource()` of the Tabular family: the base-class body is
`return undefined` (embedded as `none`); `SelectQuerySource` and
`DefaultVarAllTerms` override it to return the stored dataset source. -/
def getDatasetSource : NodeKind → Option NodeId
  | .selectQuery _ _ d _ => some d
  | .defaultVarAllTerms d => some d
  | _ => none

/-! ### Concrete scenarios used by the end-to-end and bug-exhibiting theorems -/

/-- The empty heap. -/
def heap0 : Heap := ⟨[], 0⟩

/-- `endpoint = new DefaultSparqlEndpoint()` (identity 0). -/
def epStep : Heap × NodeId := mkNode heap0 .defaultSparqlEndpoint

/-- `table = new DefaultVarAllTerms(endpoint)` (identity 1). -/
def tblStep : Heap × NodeId := mkNode epStep.1 (.defaultVarAllTerms epStep.2)

/-- The heap after both constructions. -/
def heapT : Heap := tblStep.1

/-- Identity of `endpoint`. -/
def epId : NodeId := epStep.2

/-- Identity of `table`. -/
def tblId : NodeId := tblStep.2

/-- The heap after `table.addObserver(consumerToken)` with an external token. -/
def heapObs : Heap := heapT.addObserver tblId (.ext 0)

/-- The heap after the subsequent `table.removeObserver(consumerToken)`. -/
def heapRem : Heap := heapObs.removeObserver tblId (.ext 0)

/-- The heap after the final `table.detache()`. -/
def heapDet : Heap := heapRem.detache tblId

/-- The `endpoint` node as it stands in `heapObs`. -/
def epNodeObs : Node := ⟨.defaultSparqlEndpoint, [1], []⟩

/-- A rank function for the two-node scenario heap: `table` (consumer) below
`endpoint` (producer). -/
def rankT : NodeId → Nat := fun j => if j = 0 then 1 else 0

/-- C2 scenario: `ep = new DefaultSparqlEndpoint()` (0). -/
def c2ep : Heap × NodeId := mkNode heap0 .defaultSparqlEndpoint

/-- C2 scenario: default graph source `gdef = new GraphSelector(ep, t0)` (1). -/
def c2gdef : Heap × NodeId := mkNode c2ep.1 (.graphSelector c2ep.2 0)

/-- C2 scenario: named graph source `gnamed = new GraphSelector(ep, t1)` (2). -/
def c2gnamed : Heap × NodeId := mkNode c2gdef.1 (.graphSelector c2ep.2 1)

/-- C2 scenario: `new DatasetBuilder(gdef, Map{5 ↦ gnamed})` (3). -/
def c2b : Heap × NodeId := mkNode c2gnamed.1 (.datasetBuilder c2gdef.2 [(5, c2gnamed.2)])

/-- C3 scenario: a fresh `RDFTerm` node (0) in an otherwise empty heap. -/
def c3s : Heap × NodeId := mkNode heap0 (.rdfTerm 0)

/-- C3 scenario: after `s.addObserver(o)` with the external token `o`. -/
def c3add : Heap := c3s.1.addObserver c3s.2 (.ext 0)

/-- C3 scenario: after the subsequent `s.removeObserver(o)`. -/
def c3rem : Heap := c3add.removeObserver c3s.2 (.ext 0)

/-- C4 scenario: a parameter term source `new RDFTerm(7)` (0). -/
def c4t : Heap × NodeId := mkNode heap0 (.rdfTerm 7)

/-- C4 scenario: `new DefaultSparqlEndpoint()` (1). -/
def c4e : Heap × NodeId := mkNode c4t.1 .defaultSparqlEndpoint

/-- C4 scenario: `new VarFromSelectQuery("x", q, ep, Map{"p" ↦ termSrc})` (2). -/
def c4v : Heap × NodeId := mkNode c4e.1 (.varFromSelect "x" 0 c4e.2 [("p", c4t.2)])

/-- C4 scenario: after `v.detache()`. -/
def c4det : Heap := c4v.1.detache c4v.2

/-- A one-leaf heap (a single endpoint node, no edges), used as a trivially
acyclic input. -/
def wfLeafHeap : Heap := epStep.1

/-- A heap with a single `RDFTerm` node that is its own consumer and has no
observers: the smallest cyclic registration. -/
def cycHeap : Heap := ⟨[(0, ⟨.rdfTerm 0, [0], []⟩)], 1⟩

/-- The node stored in `cycHeap`. -/
def cycNode : Node := ⟨.rdfTerm 0, [0], []⟩

/-- A sample node whose consumer list is `[1, 2]`, used to exercise removal of
an absent consumer. -/
def nodeW : Node := ⟨.rdfTerm 0, [1, 2], []⟩

/-! ### Generic lemmas about the heap representation -/

theorem modifyEntry_fst (j : NodeId) (f : Node → Node) (pr : NodeId × Node) :
    (modifyEntry j f pr).1 = pr.1 := by
  obtain ⟨k, v⟩ := pr
  by_cases hkj : k = j
  · rw [show modifyEntry j f (k, v) = (k, f v) from if_pos hkj]
  · rw [show modifyEntry j f (k, v) = (k, v) from if_neg hkj]

theorem lookup_map_modifyEntry_ne (l : List (NodeId × Node)) (i j : NodeId)
    (f : Node → Node) (hne : i ≠ j) :
    (l.map (modifyEntry j f)).lookup i = l.lookup i := by
  induction l with
  | nil => rfl
  | cons pr tl ih =>
    obtain ⟨k, v⟩ := pr
    rw [List.map_cons]
    by_cases hkj : k = j
    · subst hkj
      rw [show modifyEntry k f (k, v) = (k, f v) from if_pos rfl]
      have h2 : (i == k) = false := by simpa using hne
      simp only [List.lookup, h2, ih]
    · rw [show modifyEntry j f (k, v) = (k, v) from if_neg hkj]
      simp only [List.lookup, ih]

theorem lookup_map_modifyEntry_eq (l : List (NodeId × Node)) (j : NodeId)
    (f : Node → Node) :
    (l.map (modifyEntry j f)).lookup j = (l.lookup j).map f := by
  induction l with
  | nil => rfl
  | cons pr tl ih =>
    obtain ⟨k, v⟩ := pr
    rw [List.map_cons]
    by_cases hkj : k = j
    · subst hkj
      rw [show modifyEntry k f (k, v) = (k, f v) from if_pos rfl]
      simp only [List.lookup, beq_self_eq_true]
      rfl
    · rw [show modifyEntry j f (k, v) = (k, v) from if_neg hkj]
      have h2 : (j == k) = false := beq_eq_false_iff_ne.mpr (fun hh => hkj hh.symm)
      simp only [List.lookup, h2, ih]

theorem find?_modify_ne (h : Heap) (i j : NodeId) (f : Node → Node) (hne : i ≠ j) :
    (h.modify j f).find? i = h.find? i :=
  lookup_map_modifyEntry_ne h.nodes i j f hne

theorem find?_modify_eq (h : Heap) (j : NodeId) (f : Node → Node) :
    (h.modify j f).find? j = (h.find? j).map f :=
  lookup_map_modifyEntry_eq h.nodes j f

theorem mem_of_lookup_eq_some {l : List (NodeId × Node)} {i : NodeId} {n : Node}
    (hl : l.lookup i = some n) : (i, n) ∈ l := by
  induction l with
  | nil => simp [List.lookup] at hl
  | cons pr tl ih =>
    obtain ⟨k, v⟩ := pr
    rw [List.lookup] at hl
    cases hik : (i == k) with
    | true =>
      rw [hik] at hl
      simp at hik hl
      subst hik
      subst hl
      exact List.mem_cons_self _ _
    | false =>
      rw [hik] at hl
      exact List.mem_cons_of_mem _ (ih hl)

theorem Ranked.of_find? {h : Heap} {rank : NodeId → Nat} (hr : Ranked h rank)
    {i : NodeId} {n : Node} (hfi : h.find? i = some n) :
    ∀ c ∈ n.consumers, rank c < rank i :=
  hr (i, n) (mem_of_lookup_eq_some hfi)

/-! ### Lemmas about the short-circuit fold of `consumers.some(...)` -/

theorem foldl_anyObsStep_none (g : NodeId → Option Bool) (cs : List NodeId) :
    cs.foldl (anyObsStep g) none = none := by
  induction cs with
  | nil => rfl
  | cons c tl ih => simpa [List.foldl, anyObsStep] using ih

theorem foldl_anyObsStep_some_true (g : NodeId → Option Bool) (cs : List NodeId) :
    cs.foldl (anyObsStep g) (some true) = some true := by
  induction cs with
  | nil => rfl
  | cons c tl ih => simpa [List.foldl, anyObsStep] using ih

theorem anyObsStep_congr {g₁ g₂ : NodeId → Option Bool} (acc : Option Bool) (c : NodeId)
    (hg : g₁ c = g₂ c) : anyObsStep g₁ acc c = anyObsStep g₂ acc c := by
  unfold anyObsStep
  cases acc with
  | none => rfl
  | some b => cases b <;> simp [hg]

theorem foldl_anyObsStep_congr {g₁ g₂ : NodeId → Option Bool} (cs : List NodeId)
    (acc : Option Bool) (hg : ∀ c ∈ cs, g₁ c = g₂ c) :
    cs.foldl (anyObsStep g₁) acc = cs.foldl (anyObsStep g₂) acc := by
  induction cs generalizing acc with
  | nil => rfl
  | cons c tl ih =>
    simp only [List.foldl]
    rw [anyObsStep_congr acc c (hg c (List.mem_cons_self _ _))]
    exact ih _ (fun d hd => hg d (List.mem_cons_of_mem _ hd))

theorem foldl_anyObsStep_isSome {g : NodeId → Option Bool} (cs : List NodeId)
    (hg : ∀ c ∈ cs, ∃ b, g c = some b) (b0 : Bool) :
    ∃ b, cs.foldl (anyObsStep g) (some b0) = some b := by
  induction cs generalizing b0 with
  | nil => exact ⟨b0, rfl⟩
  | cons c tl ih =>
    cases b0 with
    | true =>
      simp only [List.foldl, anyObsStep]
      exact ⟨true, foldl_anyObsStep_some_true g tl⟩
    | false =>
      obtain ⟨bc, hbc⟩ := hg c (List.mem_cons_self _ _)
      simp only [List.foldl, anyObsStep, hbc]
      cases bc with
      | false => exact ih (fun d hd => hg d (List.mem_cons_of_mem _ hd)) false
      | true => exact ⟨true, foldl_anyObsStep_some_true g tl⟩

theorem foldl_anyObsStep_eq_any {g : NodeId → Option Bool} (cs : List NodeId)
    (hg : ∀ c ∈ cs, ∃ b, g c = some b) :
    cs.foldl (anyObsStep g) (some false)
      = some (cs.any (fun c => (g c).getD false)) := by
  induction cs with
  | nil => rfl
  | cons c tl ih =>
    obtain ⟨bc, hbc⟩ := hg c (List.mem_cons_self _ _)
    simp only [List.foldl, anyObsStep, hbc, List.any_cons]
    cases bc with
    | false =>
      simp only [hbc, Option.getD_some, Bool.false_or]
      exact ih (fun d hd => hg d (List.mem_cons_of_mem _ hd))
    | true =>
      simp only [hbc, Option.getD_some, Bool.true_or]
      exact foldl_anyObsStep_some_true g tl

theorem list_any_congr {p q : NodeId → Bool} (l : List NodeId)
    (hpq : ∀ a ∈ l, p a = q a) : l.any p = l.any q := by
  induction l with
  | nil => rfl
  | cons a tl ih =>
    simp only [List.any_cons, hpq a (List.mem_cons_self _ _),
      ih (fun b hb => hpq b (List.mem_cons_of_mem _ hb))]

/-! ### Fuel stability and termination of `isObservedF` on ranked heaps -/

theorem isObservedF_succ (h : Heap) (fuel : Nat) (i : NodeId) :
    isObservedF h (fuel+1) i =
      match h.find? i with
      | none => some false
      | some n =>
        if n.kind.isTermOrTabular && n.hasObserver then some true
        else n.consumers.foldl (anyObsStep (isObservedF h fuel)) (some false) := rfl

theorem isObservedF_succ_none (h : Heap) (fuel : Nat) (i : NodeId)
    (hfi : h.find? i = none) : isObservedF h (fuel+1) i = some false := by
  rw [isObservedF_succ, hfi]

theorem isObservedF_succ_some (h : Heap) (fuel : Nat) (i : NodeId) (n : Node)
    (hfi : h.find? i = some n) :
    isObservedF h (fuel+1) i =
      if n.kind.isTermOrTabular && n.hasObserver then some true
      else n.consumers.foldl (anyObsStep (isObservedF h fuel)) (some false) := by
  rw [isObservedF_succ, hfi]

theorem isObservedF_isSome {h : Heap} {rank : NodeId → Nat} (hr : Ranked h rank) :
    ∀ fuel i, rank i < fuel → ∃ b, isObservedF h fuel i = some b := by
  intro fuel
  induction fuel with
  | zero => intro i hi; exact absurd hi (Nat.not_lt_zero _)
  | succ m ih =>
    intro i hi
    cases hfi : h.find? i with
    | none => exact ⟨false, isObservedF_succ_none h m i hfi⟩
    | some n =>
      rw [isObservedF_succ_some h m i n hfi]
      by_cases hobs : (n.kind.isTermOrTabular && n.hasObserver) = true
      · rw [if_pos hobs]
        exact ⟨true, rfl⟩
      · rw [if_neg hobs]
        apply foldl_anyObsStep_isSome
        intro c hc
        exact ih c (by have := hr.of_find? hfi c hc; omega)

theorem isObservedF_stable_succ {h : Heap} {rank : NodeId → Nat} (hr : Ranked h rank) :
    ∀ fuel i, rank i < fuel → isObservedF h fuel i = isObservedF h (fuel+1) i := by
  intro fuel
  induction fuel with
  | zero => intro i hi; exact absurd hi (Nat.not_lt_zero _)
  | succ m ih =>
    intro i hi
    cases hfi : h.find? i with
    | none =>
      rw [isObservedF_succ_none h m i hfi, isObservedF_succ_none h (m+1) i hfi]
    | some n =>
      rw [isObservedF_succ_some h m i n hfi, isObservedF_succ_some h (m+1) i n hfi]
      by_cases hobs : (n.kind.isTermOrTabular && n.hasObserver) = true
      · rw [if_pos hobs, if_pos hobs]
      · rw [if_neg hobs, if_neg hobs]
        exact foldl_anyObsStep_congr _ _
          (fun c hc => ih c (by have := hr.of_find? hfi c hc; omega))

theorem isObservedF_stable_add {h : Heap} {rank : NodeId → Nat} (hr : Ranked h rank) :
    ∀ d fuel i, rank i < fuel → isObservedF h fuel i = isObservedF h (fuel + d) i := by
  intro d
  induction d with
  | zero => intro fuel i hi; rfl
  | succ m ih =>
    intro fuel i hi
    rw [ih fuel i hi]
    exact isObservedF_stable_succ hr (fuel + m) i (by omega)

theorem isObservedF_stable {h : Heap} {rank : NodeId → Nat} (hr : Ranked h rank)
    (f₁ f₂ : Nat) (i : NodeId) (h₁ : rank i < f₁) (h₂ : rank i < f₂) :
    isObservedF h f₁ i = isObservedF h f₂ i := by
  have ha := isObservedF_stable_add hr f₂ f₁ i h₁
  have hb := isObservedF_stable_add hr f₁ f₂ i h₂
  rw [ha, hb, Nat.add_comm]

theorem isObservedR_eq {h : Heap} {rank : NodeId → Nat} (hr : Ranked h rank)
    {i : NodeId} {n : Node} (hfi : h.find? i = some n) :
    h.isObservedR rank i =
      ((n.kind.isTermOrTabular && n.hasObserver)
        || n.consumers.any (h.isObservedR rank)) := by
  unfold Heap.isObservedR
  rw [isObservedF_succ_some h (rank i) i n hfi]
  by_cases hobs : (n.kind.isTermOrTabular && n.hasObserver) = true
  · rw [if_pos hobs, hobs, Bool.true_or]
    rfl
  · rw [if_neg hobs]
    have hb : (n.kind.isTermOrTabular && n.hasObserver) = false := by
      cases hx : (n.kind.isTermOrTabular && n.hasObserver) with
      | true => exact absurd hx hobs
      | false => rfl
    rw [hb, Bool.false_or]
    have hsome : ∀ c ∈ n.consumers, ∃ b, isObservedF h (rank i) c = some b :=
      fun c hc => isObservedF_isSome hr (rank i) c (hr.of_find? hfi c hc)
    rw [foldl_anyObsStep_eq_any _ hsome, Option.getD_some]
    apply list_any_congr
    intro c hc
    have hlt : rank c < rank i := hr.of_find? hfi c hc
    have := isObservedF_stable hr (rank i) (rank c + 1) c hlt (Nat.lt_succ_self _)
    rw [this]

/-! ### Idempotent add, no-op removal of absent entries, double detache -/

theorem addConsumerFn_idem (c : NodeId) (n : Node) :
    addConsumerFn c (addConsumerFn c n) = addConsumerFn c n := by
  by_cases hc : c ∈ n.consumers
  · simp [addConsumerFn, hc]
  · simp [addConsumerFn, hc]

theorem modify_modify (h : Heap) (j : NodeId) (f g : Node → Node) :
    (h.modify j f).modify j g = h.modify j (fun n => g (f n)) := by
  unfold Heap.modify
  simp only [List.map_map]
  have hpt : ∀ pr, (modifyEntry j g ∘ modifyEntry j f) pr
      = modifyEntry j (fun n => g (f n)) pr := by
    intro pr
    obtain ⟨k, v⟩ := pr
    by_cases hkj : k = j
    · simp [modifyEntry, hkj]
    · simp [modifyEntry, hkj]
  rw [funext hpt]

theorem heap_addConsumer_idem (h : Heap) (p c : NodeId) :
    (h.addConsumer p c).addConsumer p c = h.addConsumer p c := by
  unfold Heap.addConsumer
  rw [modify_modify]
  exact congrArg (h.modify p) (funext fun n => addConsumerFn_idem c n)

theorem removeConsumerFn_of_not_mem {c : NodeId} {n : Node} (hc : c ∉ n.consumers) :
    removeConsumerFn c n = n := by
  unfold removeConsumerFn
  rw [List.erase_of_not_mem hc]

theorem nodes_modify (h : Heap) (j : NodeId) (f : Node → Node) :
    (h.modify j f).nodes = h.nodes.map (modifyEntry j f) := rfl

theorem modify_of_fixes (h : Heap) (j : NodeId) (f : Node → Node)
    (hf : ∀ pr ∈ h.nodes, pr.1 = j → f pr.2 = pr.2) : h.modify j f = h := by
  unfold Heap.modify
  cases h with
  | mk ns nxt =>
    congr 1
    have hpt : ∀ pr ∈ ns, modifyEntry j f pr = id pr := by
      intro pr hpr
      obtain ⟨k, v⟩ := pr
      by_cases hkj : k = j
      · rw [show modifyEntry j f (k, v) = (k, f v) from if_pos hkj]
        rw [hf (k, v) hpr hkj]
        rfl
      · exact if_neg hkj
    rw [List.map_congr_left hpt, List.map_id]

theorem wf_removeConsumer {h : Heap} (hw : WFHeap h) (p c : NodeId) :
    WFHeap (h.removeConsumer p c) := by
  intro pr hpr
  rw [Heap.removeConsumer, nodes_modify] at hpr
  obtain ⟨pr0, hpr0, rfl⟩ := List.mem_map.mp hpr
  obtain ⟨k, v⟩ := pr0
  by_cases hkj : k = p
  · rw [show modifyEntry p (removeConsumerFn c) (k, v) = (k, removeConsumerFn c v)
      from if_pos hkj]
    exact (hw (k, v) hpr0).erase c
  · rw [show modifyEntry p (removeConsumerFn c) (k, v) = (k, v) from if_neg hkj]
    exact hw (k, v) hpr0

theorem entries_lack_after_removeConsumer {h : Heap} (hw : WFHeap h) (p c : NodeId) :
    ∀ pr ∈ (h.removeConsumer p c).nodes, pr.1 = p → c ∉ pr.2.consumers := by
  intro pr hpr hpe
  rw [Heap.removeConsumer, nodes_modify] at hpr
  obtain ⟨pr0, hpr0, rfl⟩ := List.mem_map.mp hpr
  obtain ⟨k, v⟩ := pr0
  by_cases hkj : k = p
  · rw [show modifyEntry p (removeConsumerFn c) (k, v) = (k, removeConsumerFn c v)
      from if_pos hkj]
    exact (hw (k, v) hpr0).not_mem_erase
  · rw [show modifyEntry p (removeConsumerFn c) (k, v) = (k, v) from if_neg hkj] at hpe
    exact absurd hpe hkj

theorem entries_lack_preserved {h : Heap} {p c : NodeId}
    (hlack : ∀ pr ∈ h.nodes, pr.1 = p → c ∉ pr.2.consumers) (q : NodeId) :
    ∀ pr ∈ (h.removeConsumer q c).nodes, pr.1 = p → c ∉ pr.2.consumers := by
  intro pr hpr hpe
  rw [Heap.removeConsumer, nodes_modify] at hpr
  obtain ⟨pr0, hpr0, rfl⟩ := List.mem_map.mp hpr
  obtain ⟨k, v⟩ := pr0
  by_cases hkq : k = q
  · rw [show modifyEntry q (removeConsumerFn c) (k, v) = (k, removeConsumerFn c v)
      from if_pos hkq] at hpe ⊢
    have hcv : c ∉ v.consumers := hlack (k, v) hpr0 hpe
    intro hmem
    exact hcv (List.mem_of_mem_erase hmem)
  · rw [show modifyEntry q (removeConsumerFn c) (k, v) = (k, v) from if_neg hkq] at hpe ⊢
    exact hlack (k, v) hpr0 hpe

theorem entries_lack_preserved_all {h : Heap} {p c : NodeId}
    (hlack : ∀ pr ∈ h.nodes, pr.1 = p → c ∉ pr.2.consumers) (ts : List NodeId) :
    ∀ pr ∈ (h.removeAllConsumers ts c).nodes, pr.1 = p → c ∉ pr.2.consumers := by
  induction ts generalizing h with
  | nil => exact hlack
  | cons t tl ih => exact ih (entries_lack_preserved hlack t)

theorem wf_removeAllConsumers {h : Heap} (hw : WFHeap h) (ts : List NodeId) (c : NodeId) :
    WFHeap (h.removeAllConsumers ts c) := by
  induction ts generalizing h with
  | nil => exact hw
  | cons t tl ih => exact ih (wf_removeConsumer hw t c)

theorem entries_lack_after_removeAll {h : Heap} (hw : WFHeap h) {p c : NodeId}
    (ts : List NodeId) (hp : p ∈ ts) :
    ∀ pr ∈ (h.removeAllConsumers ts c).nodes, pr.1 = p → c ∉ pr.2.consumers := by
  induction ts generalizing h with
  | nil => exact absurd hp (List.not_mem_nil p)
  | cons t tl ih =>
    rcases List.mem_cons.mp hp with hpt | hptl
    · subst hpt
      exact entries_lack_preserved_all (entries_lack_after_removeConsumer hw p c) tl
    · exact ih (wf_removeConsumer hw t c) hptl

theorem removeConsumer_of_lack {h : Heap} {p c : NodeId}
    (hlack : ∀ pr ∈ h.nodes, pr.1 = p → c ∉ pr.2.consumers) :
    h.removeConsumer p c = h := by
  apply modify_of_fixes
  intro pr hpr hpe
  exact removeConsumerFn_of_not_mem (hlack pr hpr hpe)

theorem removeAll_of_lack {h : Heap} {c : NodeId} (ts : List NodeId)
    (hlack : ∀ p ∈ ts, ∀ pr ∈ h.nodes, pr.1 = p → c ∉ pr.2.consumers) :
    h.removeAllConsumers ts c = h := by
  induction ts with
  | nil => rfl
  | cons t tl ih =>
    have h1 : h.removeConsumer t c = h :=
      removeConsumer_of_lack (hlack t (List.mem_cons_self _ _))
    show (h.removeConsumer t c).removeAllConsumers tl c = h
    rw [h1]
    exact ih (fun p hp => hlack p (List.mem_cons_of_mem _ hp))

theorem find?_removeConsumer_kind (h : Heap) (p c i : NodeId) :
    ((h.removeConsumer p c).find? i).map Node.kind = (h.find? i).map Node.kind := by
  by_cases hip : i = p
  · subst hip
    rw [Heap.removeConsumer, find?_modify_eq, Option.map_map]
    cases h.find? i with
    | none => rfl
    | some n => rfl
  · rw [Heap.removeConsumer, find?_modify_ne _ _ _ _ hip]

theorem find?_removeAll_kind (h : Heap) (ts : List NodeId) (c i : NodeId) :
    ((h.removeAllConsumers ts c).find? i).map Node.kind
      = (h.find? i).map Node.kind := by
  induction ts generalizing h with
  | nil => rfl
  | cons t tl ih =>
    exact (ih (h.removeConsumer t c)).trans (find?_removeConsumer_kind h t c i)

theorem detache_detache {h : Heap} (hw : WFHeap h) (i : NodeId) :
    (h.detache i).detache i = h.detache i := by
  cases hfi : h.find? i with
  | none =>
    have h0 : h.detache i = h := by unfold Heap.detache; rw [hfi]
    rw [h0, h0]
  | some n =>
    cases hdt : detacheTargets n.kind with
    | none =>
      have h0 : h.detache i = h := by simp only [Heap.detache, hfi, hdt]
      rw [h0, h0]
    | some ts =>
      have h1 : h.detache i = h.removeAllConsumers ts i := by
        simp only [Heap.detache, hfi, hdt]
      rw [h1]
      have hk : ((h.removeAllConsumers ts i).find? i).map Node.kind = some n.kind := by
        rw [find?_removeAll_kind, hfi]
        rfl
      obtain ⟨n2, hfi2, hk2⟩ :
          ∃ n2, (h.removeAllConsumers ts i).find? i = some n2 ∧ n2.kind = n.kind := by
        cases hf2 : (h.removeAllConsumers ts i).find? i with
        | none => rw [hf2] at hk; simp at hk
        | some m =>
          rw [hf2] at hk
          simp at hk
          exact ⟨m, rfl, hk⟩
      have h2 : (h.removeAllConsumers ts i).detache i
          = (h.removeAllConsumers ts i).removeAllConsumers ts i := by
        simp only [Heap.detache, hfi2, hk2, hdt]
      rw [h2]
      apply removeAll_of_lack
      intro p hp
      exact entries_lack_after_removeAll hw ts hp

/-! ### The observer-list invariant forced by the self-pushing `addObserver` -/

theorem obs_invariant_step (selfId : NodeId) (n : Node)
    (hn : n.observers = [] ∨ n.observers = [ObsToken.node selfId]) (op : ObsOp) :
    (applyObsOp selfId n op).observers = [] ∨
      (applyObsOp selfId n op).observers = [ObsToken.node selfId] := by
  cases op with
  | add t =>
    rcases hn with hn | hn <;> simp [applyObsOp, addObserverFn, hn]
  | remove t =>
    rcases hn with hn | hn
    · left
      simp [applyObsOp, removeObserverFn, hn]
    · by_cases ht : t = ObsToken.node selfId
      · left
        show (n.observers.erase t) = []
        rw [hn, ht, List.erase_cons_head]
      · right
        show (n.observers.erase t) = [ObsToken.node selfId]
        rw [hn, List.erase_of_not_mem (by simp [ht])]

theorem obs_invariant_run (selfId : NodeId) (ops : List ObsOp) :
    ∀ n : Node, (n.observers = [] ∨ n.observers = [ObsToken.node selfId]) →
      ((runObsOps selfId n ops).observers = [] ∨
        (runObsOps selfId n ops).observers = [ObsToken.node selfId]) := by
  induction ops with
  | nil => intro n hn; exact hn
  | cons op tl ih =>
    intro n hn
    exact ih (applyObsOp selfId n op) (obs_invariant_step selfId n hn op)

/-! ### The claims -/

/-- Claim C1, settled against the code: in the end-to-end scenario
(`endpoint = new DefaultSparqlEndpoint()`, `table = new DefaultVarAllTerms(endpoint)`,
external `consumerToken`), the table starts unobserved; after
`table.addObserver(consumerToken)` both the table and, transitively, the
endpoint report observed; `table.detache()` removes the table from the
endpoint's consumer list.  But after `table.removeObserver(consumerToken)`
both still report observed — `addObserver` stored the node itself rather than
the passed token, so the removal finds nothing — contradicting the claimed
return to `false`. -/
theorem endpoint_table_scenario :
    isObservedF heapT 2 tblId = some false ∧
    isObservedF heapObs 2 tblId = some true ∧
    isObservedF heapObs 2 epId = some true ∧
    isObservedF heapRem 2 tblId = some true ∧
    isObservedF heapRem 2 epId = some true ∧
    (heapDet.find? epId).map Node.consumers = some [] := by
  decide

/-- Claim C2, settled against the code: `new DatasetBuilder(gdef, Map{t ↦ gnamed})`
registers the builder with the default graph source, but with none of the
named graph sources: the constructor iterates the name→source `Map` with
`Object.values`, which yields nothing for a `Map`, so `gnamed`'s consumer list
stays empty. -/
theorem datasetBuilder_named_registration :
    (c2b.1.find? c2gdef.2).map Node.consumers = some [c2b.2] ∧
    (c2b.1.find? c2gnamed.2).map Node.consumers = some [] := by
  decide

/-- Claim C3, settled against the code: on a fresh Term-family node `s`,
`s.addObserver(o)` with an external token `o` inserts the node itself — not
`o` — into the observer list; the subsequent `s.removeObserver(o)` removes
nothing, and `hasObserver()` stays `true`, contradicting the claimed
insert-`o`/remove-`o` round trip. -/
theorem addObserver_pushes_self :
    (c3add.find? c3s.2).map Node.observers = some [ObsToken.node c3s.2] ∧
    (c3add.find? c3s.2).map (fun n => decide (ObsToken.ext 0 ∈ n.observers))
      = some false ∧
    (c3rem.find? c3s.2).map Node.observers = some [ObsToken.node c3s.2] ∧
    (c3rem.find? c3s.2).map Node.hasObserver = some true := by
  decide

/-- Claim C4, settled against the code: the `varFromSelect` constructor does
register the node with its parameter term source (first conjunct), but
`detache()` unregisters only from the dataset source (second conjunct); the
node remains in the parameter source's consumer list (third conjunct),
contradicting the claimed zero occurrences after detach. -/
theorem varFromSelect_detache_incomplete :
    (c4v.1.find? c4t.2).map Node.consumers = some [c4v.2] ∧
    (c4det.find? c4e.2).map Node.consumers = some [] ∧
    (c4det.find? c4t.2).map Node.consumers = some [c4v.2] := by
  decide

/-- Claim C5: on every heap whose consumer edges are ranked (a DAG), a node of
the Term or Tabular family satisfies
`isObserved() = hasObserver() || (∃ c ∈ consumers, c.isObserved())`, a node of
the Graph or Dataset family satisfies
`isObserved() = (∃ c ∈ consumers, c.isObserved())`, and a node with no
consumers and no observers reports `false` — in particular a freshly
constructed leaf is unobserved. -/
theorem isObserved_spec (h : Heap) (rank : NodeId → Nat) (hr : Ranked h rank)
    (i : NodeId) (n : Node) (hfi : h.find? i = some n) :
    (n.kind.family = Family.term ∨ n.kind.family = Family.tabular →
      h.isObservedR rank i
        = (n.hasObserver || n.consumers.any (h.isObservedR rank))) ∧
    (n.kind.family = Family.graph ∨ n.kind.family = Family.dataset →
      h.isObservedR rank i = n.consumers.any (h.isObservedR rank)) ∧
    (n.consumers = [] → n.observers = [] → h.isObservedR rank i = false) := by
  have heq := isObservedR_eq hr hfi
  refine ⟨?_, ?_, ?_⟩
  · intro hf
    have htt : n.kind.isTermOrTabular = true := by
      unfold NodeKind.isTermOrTabular
      rcases hf with hf | hf <;> rw [hf] <;> rfl
    rw [heq, htt, Bool.true_and]
  · intro hf
    have htt : n.kind.isTermOrTabular = false := by
      unfold NodeKind.isTermOrTabular
      rcases hf with hf | hf <;> rw [hf] <;> rfl
    rw [heq, htt, Bool.false_and, Bool.false_or]
  · intro hc ho
    have hho : n.hasObserver = false := by
      unfold Node.hasObserver
      rw [ho]
      rfl
    rw [heq, hc, hho, Bool.and_false, Bool.false_or]
    rfl

/-- Witness: `isObserved_spec` applied to the endpoint node of the concrete
two-node scenario heap `heapObs`, where the table holds an observer. -/
theorem isObserved_spec_witness :
    (epNodeObs.kind.family = Family.term ∨ epNodeObs.kind.family = Family.tabular →
      heapObs.isObservedR rankT epId
        = (epNodeObs.hasObserver
            || epNodeObs.consumers.any (heapObs.isObservedR rankT))) ∧
    (epNodeObs.kind.family = Family.graph ∨ epNodeObs.kind.family = Family.dataset →
      heapObs.isObservedR rankT epId
        = epNodeObs.consumers.any (heapObs.isObservedR rankT)) ∧
    (epNodeObs.consumers = [] → epNodeObs.observers = [] →
      heapObs.isObservedR rankT epId = false) :=
  isObserved_spec heapObs rankT (by decide) epId epNodeObs (by decide)

/-- Claim C6: consumer registration is idempotent on every producer family:
adding the same consumer twice leaves the heap exactly as adding it once; the
ledger inserts the consumer iff it is not already present (and is total, so no
error is ever raised on a duplicate); after the call the consumer is present. -/
theorem addConsumer_idempotent (h : Heap) (p c : NodeId) (n : Node) :
    (h.addConsumer p c).addConsumer p c = h.addConsumer p c ∧
    (addConsumerFn c n).consumers
      = (if c ∈ n.consumers then n.consumers else n.consumers ++ [c]) ∧
    c ∈ (addConsumerFn c n).consumers := by
  refine ⟨heap_addConsumer_idem h p c, ?_, ?_⟩
  · unfold addConsumerFn
    by_cases hc : c ∈ n.consumers
    · rw [if_pos hc, if_pos hc]
    · rw [if_neg hc, if_neg hc]
  · unfold addConsumerFn
    by_cases hc : c ∈ n.consumers
    · rw [if_pos hc]
      exact hc
    · rw [if_neg hc]
      simp

/-- Claim C7: removing an absent consumer is a silent no-op on every producer
family, and consequently calling `detache()` a second time on any node is a
no-op leaving every consumer list unchanged (stated on heaps whose consumer
lists are duplicate-free, the invariant `addConsumer` maintains). -/
theorem removeConsumer_absent_detache_twice (n : Node) (c : NodeId) (h : Heap)
    (i : NodeId) (hc : c ∉ n.consumers) (hw : WFHeap h) :
    removeConsumerFn c n = n ∧ (h.detache i).detache i = h.detache i :=
  ⟨removeConsumerFn_of_not_mem hc, detache_detache hw i⟩

/-- Witness: `removeConsumer_absent_detache_twice` at a concrete node whose
consumer list lacks `5` and the concrete two-node scenario heap. -/
theorem removeConsumer_absent_detache_twice_witness :
    removeConsumerFn 5 nodeW = nodeW ∧
      (heapT.detache tblId).detache tblId = heapT.detache tblId :=
  removeConsumer_absent_detache_twice nodeW 5 heapT tblId (by decide) (by decide)

/-- Claim C8: `getDatasetSource()` on Tabular-family nodes is a total function
(never throws): on the base `TabularSource` (a node with no dataset source) it
returns the explicit absent value (`undefined`, embedded `none`), and on
`selectQuery` and `defaultVarAllTerms` nodes it returns exactly the
`datasetSource` supplied at construction. -/
theorem getDatasetSource_total (t : String) (o : VarMapping) (q : Nat) (d : NodeId)
    (bs : List TabularSourceAndMapping) :
    getDatasetSource (.tabularSource t) = none ∧
    getDatasetSource (.selectQuery o q d bs) = some d ∧
    getDatasetSource (.defaultVarAllTerms d) = some d :=
  ⟨rfl, rfl, rfl⟩

/-- Claim C9: when the consumer edges admit a rank function (form a DAG), the
recursive `isObserved()` terminates on every node — any fuel beyond the node's
rank yields a result; acyclicity is a genuine precondition: on a node that is
its own consumer (the head of its consumer list) with no observer to
short-circuit the disjunction, the recursion never completes — every fuel
bound is exhausted. -/
theorem isObserved_terminates_on_dag (h : Heap) (rank : NodeId → Nat)
    (hr : Ranked h rank) (i : NodeId) (fuel : Nat) (hf : rank i < fuel)
    (h2 : Heap) (j : NodeId) (n : Node) (cs : List NodeId)
    (hfj : h2.find? j = some n) (hcons : n.consumers = j :: cs)
    (hobs : n.observers = []) :
    (∃ b, isObservedF h fuel i = some b) ∧ (∀ f, isObservedF h2 f j = none) := by
  constructor
  · exact isObservedF_isSome hr fuel i hf
  · intro f
    induction f with
    | zero => rfl
    | succ m ih =>
      rw [isObservedF_succ_some h2 m j n hfj]
      have hno : (n.kind.isTermOrTabular && n.hasObserver) = false := by
        have hh : n.hasObserver = false := by
          unfold Node.hasObserver
          rw [hobs]
          rfl
        rw [hh, Bool.and_false]
      rw [if_neg (by simp [hno]), hcons]
      have hstep : anyObsStep (isObservedF h2 m) (some false) j = none := ih
      rw [List.foldl_cons, hstep]
      exact foldl_anyObsStep_none _ cs

/-- Witness: `isObserved_terminates_on_dag` at a concrete one-leaf acyclic
heap (rank constantly `0`, fuel `1`) and the concrete one-node cyclic heap. -/
theorem isObserved_terminates_on_dag_witness :
    (∃ b, isObservedF wfLeafHeap 1 0 = some b) ∧
      (∀ f, isObservedF cycHeap f 0 = none) :=
  isObserved_terminates_on_dag wfLeafHeap (fun _ => 0) (by decide) 0 1 (by decide)
    cycHeap 0 cycNode [] (by decide) rfl rfl

/-- Claim C10: on any `RDFTermSource` or `TabularSource` starting from the
empty observer list, after an arbitrary finite sequence of
`addObserver`/`removeObserver` calls with arbitrary tokens, the observer list
has at most one element, and that element can only be the node itself — the
invariant forced by `addObserver` pushing `this`. -/
theorem observers_at_most_self (k : NodeKind) (cs : List NodeId) (selfId : NodeId)
    (ops : List ObsOp) :
    (runObsOps selfId ⟨k, cs, []⟩ ops).observers.length ≤ 1 ∧
    ∀ t ∈ (runObsOps selfId ⟨k, cs, []⟩ ops).observers, t = ObsToken.node selfId := by
  rcases obs_invariant_run selfId ops ⟨k, cs, []⟩ (Or.inl rfl) with hv | hv
  · rw [hv]
    exact ⟨by simp, by simp⟩
  · rw [hv]
    refine ⟨by simp, ?_⟩
    intro t ht
    simpa using ht
